import Mathlib

/-!
Verification development for the `simultaneous_translation` fragment
(`examples/simultaneous_translation/utils/latency.py` and
`examples/simultaneous_translation/models/berard.py`).

Tensors are embedded per batch element wherever every torch operation
involved acts independently on each batch column (all of `latency.py`'s
arithmetic does): a column of a `(tgt_len, bsz)` tensor becomes a
`List ℚ`, broadcast scalars such as `src_lens` become a single `ℚ`.
Floating point arithmetic is idealized as exact rational (or real, where
`exp`/`tanh` appear) arithmetic.  Division by zero is the junk value `0`,
as in Mathlib.
-/

namespace Latency

/-- Embedding of `tensor.masked_fill(mask, 0)` on one batch column:
entries where the mask holds are replaced by `0`. -/
def maskedFill (xs : List ℚ) (mask : List Bool) : List ℚ :=
  List.zipWith (fun x m => if m then 0 else x) xs mask

namespace AverageProportion

/-- Embedding of `AverageProportion.cal_metric` (latency.py lines 85-93) on one
batch column.  `delays` is the column of the `(tgt_len, bsz)` delay tensor,
`srcLen`/`tgtLens` the column entries of `src_lens`/`tgt_lens`.  The torch code
sums the (mask-filled) delays over dim 0 and divides by `src_lens * tgt_lens`. -/
def cal_metric (delays : List ℚ) (srcLen tgtLens : ℚ)
    (target_padding_mask : Option (List Bool)) : ℚ :=
  (match target_padding_mask with
    | some m => (maskedFill delays m).sum
    | none => delays.sum) / (srcLen * tgtLens)

end AverageProportion

namespace AverageLagging

/-- Embedding of `AverageLagging.cal_metric` (latency.py lines 112-124) on one
batch column.  Steps, exactly as in the code: `lagging_padding_mask` is
`delays >= src_lens` shifted one step down (pad a `False` row on top, drop the
last row); `lagging i = delays i - i / gamma`; masked positions are filled with
`0`; `tau` counts the unmasked positions; the result is the masked sum divided
by `tau`.  The `target_padding_mask` argument is accepted and ignored, as in
the code. -/
def cal_metric (delays : List ℚ) (srcLen tgtLens : ℚ)
    (_target_padding_mask : Option (List Bool)) : ℚ :=
  let reachMask := delays.map (fun d => decide (srcLen ≤ d))
  let laggingPaddingMask := (false :: reachMask).dropLast
  let gamma := tgtLens / srcLen
  let lagging :=
    List.zipWith (fun d (i : ℕ) => d - (i : ℚ) / gamma) delays (List.range delays.length)
  let laggingFilled := maskedFill lagging laggingPaddingMask
  let tau : ℚ := (laggingPaddingMask.count false : ℕ)
  laggingFilled.sum / tau

end AverageLagging

namespace DifferentiableAverageLagging

/-- Tail of the `new_delays` loop of `DifferentiableAverageLagging.cal_metric`
(latency.py lines 150-162): given the previously written value `prev`,
each next entry is `max (prev + 1 / gamma) d` (the `torch.cat ... .max(dim=0)`
of the two stacked rows). -/
def newDelaysAux (gamma : ℚ) : ℚ → List ℚ → List ℚ
  | _, [] => []
  | prev, d :: ds =>
      let nd := max (prev + 1 / gamma) d
      nd :: newDelaysAux gamma nd ds

/-- The full `new_delays` tensor built by the loop: the first entry is copied
from `delays`, later entries follow `newDelaysAux`. -/
def newDelays (gamma : ℚ) : List ℚ → List ℚ
  | [] => []
  | d :: ds => d :: newDelaysAux gamma d ds

/-- Embedding of `DifferentiableAverageLagging.cal_metric` (latency.py lines
145-172) on one batch column: compute `new_delays`, subtract `i / gamma`,
mask-fill if a target padding mask is given, sum and divide by `tgt_lens`. -/
def cal_metric (delays : List ℚ) (srcLen tgtLens : ℚ)
    (target_padding_mask : Option (List Bool)) : ℚ :=
  let gamma := tgtLens / srcLen
  let nd := newDelays gamma delays
  let dal :=
    List.zipWith (fun d (i : ℕ) => d - (i : ℚ) / gamma) nd (List.range delays.length)
  let dalFilled :=
    match target_padding_mask with
    | some m => maskedFill dal m
    | none => dal
  dalFilled.sum / tgtLens

/-- The adjusted-delay recurrence as the spec states it, indexed by position:
`delays'_1 = delays_1` and `delays'_i = max(delays_i, delays'_(i-1) + 1/gamma)`
(0-based here). -/
def adjDelays (gamma : ℚ) (delays : List ℚ) : ℕ → ℚ
  | 0 => delays.getD 0 0
  | i + 1 => max (delays.getD (i + 1) 0) (adjDelays gamma delays i + 1 / gamma)

/-- Indexed form of the adjusted-delay recurrence continued from an explicit
previously adjusted value `prev` (proof device relating `newDelaysAux` to
`adjDelays`). -/
def adjFrom (gamma : ℚ) (delays : List ℚ) (prev : ℚ) : ℕ → ℚ
  | 0 => max (delays.getD 0 0) (prev + 1 / gamma)
  | i + 1 => max (delays.getD (i + 1) 0) (adjFrom gamma delays prev i + 1 / gamma)

end DifferentiableAverageLagging

/-- Effect of `LatencyMetric.prepare_latency_metric` on one batch column in
the configuration `LatencyInference` uses (`batch_first=True`,
`start_from_zero=True`, no target padding mask): the delays are shifted by one
and `tgt_lens` is the target length.  `cal` is the `cal_metric` of the chosen
subclass, so this is one batch column of `LatencyMetric.__call__`
(latency.py lines 46-61). -/
def callColumn (cal : List ℚ → ℚ → ℚ → Option (List Bool) → ℚ)
    (delays : List ℚ) (srcLen : ℚ) : ℚ :=
  let shifted := delays.map (· + 1)
  cal shifted srcLen (delays.length : ℚ) none

namespace LatencyInference

/-- Embedding of `monotonic_step.view(bsz, -1, tgt_len).max(dim=1)[0]` on one
batch element: `chunks` is that element's `(middle, tgt_len)` slice, and the
reduction is the per-position maximum over the middle dimension, realized as a
left fold of elementwise `max` starting from the first row. -/
def maxDim1 : List (List ℚ) → List ℚ
  | [] => []
  | r :: rs => rs.foldl (fun acc row => List.zipWith max acc row) r

/-- Embedding of the delay clamping of `LatencyInference.__call__`
(latency.py lines 202-207):
`delays.masked_fill(delays >= src_lens, 0) + (src_lens - 1).masked_fill(delays < src_lens, 0)`. -/
def clampDelays (srcLen : ℚ) (delays : List ℚ) : List ℚ :=
  delays.map (fun d =>
    (if srcLen ≤ d then 0 else d) + (if d < srcLen then 0 else srcLen - 1))

/-- Embedding of `LatencyInference.__call__` (latency.py lines 185-217) on one
batch element, for an instance constructed with `start_from_zero=True` (so the
`monotonic_step -= 1` branch is not taken).  The returned association list
models the Python dict in its insertion order. -/
def callElem (chunks : List (List ℚ)) (srcLen : ℚ) : List (String × ℚ) :=
  let delays := clampDelays srcLen (maxDim1 chunks)
  [("differentiable_average_lagging",
      callColumn DifferentiableAverageLagging.cal_metric delays srcLen),
   ("average_lagging", callColumn AverageLagging.cal_metric delays srcLen),
   ("average_proportion", callColumn AverageProportion.cal_metric delays srcLen)]

end LatencyInference

/-- A two-dimensional torch tensor, kept as metadata plus an entry function,
for the parts of `latency.py` where the batched shape bookkeeping itself
matters (`prepare_latency_metric`'s transposes and assertions). -/
structure Tensor2 (α : Type) where
  rows : ℕ
  cols : ℕ
  entry : ℕ → ℕ → α

/-- Embedding of `tensor.t()`: swap the two dimensions. -/
def Tensor2.t (m : Tensor2 α) : Tensor2 α :=
  ⟨m.cols, m.rows, fun i j => m.entry j i⟩

/-- Embedding of `LatencyMetric.length_from_padding_mask` (latency.py lines
3-6): `padding_mask.size(dim) - padding_mask.sum(dim=dim, keepdim=True)` with
`dim = 1` if `batch_first` else `0`. -/
def length_from_padding_mask (m : Tensor2 Bool) (batch_first : Bool) : Tensor2 ℕ :=
  if batch_first then
    ⟨m.rows, 1, fun b _ =>
      m.cols - ∑ t ∈ Finset.range m.cols, (if m.entry b t then 1 else 0)⟩
  else
    ⟨1, m.cols, fun _ b =>
      m.rows - ∑ t ∈ Finset.range m.rows, (if m.entry t b then 1 else 0)⟩

namespace LatencyMetric

/-- Embedding of `LatencyMetric.prepare_latency_metric` (latency.py lines
8-44).  The two leading `assert len(... .size()) == 2` hold by the `Tensor2`
type.  The locals `tgt_len`, `bsz`, `bsz_1` are bound only inside the
`if batch_first:` branch, exactly as in the Python; reading an unbound local
raises, which the embedding models as `Except.error`.  Failed `assert`s also
raise. -/
def prepare_latency_metric (delays srcLens : Tensor2 ℚ)
    (target_padding_mask : Option (Tensor2 Bool))
    (batch_first startFromZero : Bool) :
    Except String (Tensor2 ℚ × Tensor2 ℚ × Tensor2 ℚ × Option (Tensor2 Bool)) := do
  let delays :=
    if startFromZero then { delays with entry := fun i j => delays.entry i j + 1 }
    else delays
  let (delays, srcLens, tpm, tgtLen?, bsz?, bsz1?) ←
    if batch_first then do
      let delaysT := delays.t
      let srcLensT := srcLens.t
      let tgtLen := delaysT.rows
      let bsz := delaysT.cols
      let bsz1 := srcLensT.cols
      match target_padding_mask with
      | some m => do
          let mT := m.t
          let tgtLen1 := mT.rows
          let bsz2 := mT.cols
          unless tgtLen = tgtLen1 do throw "AssertionError"
          unless bsz = bsz2 do throw "AssertionError"
          pure (delaysT, srcLensT, some mT, some tgtLen, some bsz, some bsz1)
      | none => pure (delaysT, srcLensT, none, some tgtLen, some bsz, some bsz1)
    else
      pure (delays, srcLens, target_padding_mask, none, none, none)
  let some bsz := bsz? | throw "UnboundLocalError: bsz"
  let some bsz1 := bsz1? | throw "UnboundLocalError: bsz_1"
  unless bsz = bsz1 do throw "AssertionError"
  match tpm with
  | none => do
      let some tgtLen := tgtLen? | throw "UnboundLocalError: tgt_len"
      let tgtLens : Tensor2 ℚ := ⟨1, bsz, fun _ _ => (tgtLen : ℚ)⟩
      pure (delays, srcLens, tgtLens, none)
  | some m => do
      let lens := length_from_padding_mask m false
      let tgtLens : Tensor2 ℚ := ⟨1, bsz, fun _ b => (lens.entry 0 b : ℚ)⟩
      let delays : Tensor2 ℚ :=
        { delays with entry := fun i j => if m.entry i j then 0 else delays.entry i j }
      pure (delays, srcLens, tgtLens, some m)

/-- One batch column of a prepared `(tgt_len, bsz)` tensor, as a list. -/
def colList (m : Tensor2 ℚ) (b : ℕ) : List ℚ :=
  (List.range m.rows).map (fun t => m.entry t b)

/-- One batch column of a prepared boolean mask, as a list. -/
def colListB (m : Tensor2 Bool) (b : ℕ) : List Bool :=
  (List.range m.rows).map (fun t => m.entry t b)

/-- Embedding of `LatencyMetric.__call__` (latency.py lines 46-61):
`prepare_latency_metric` followed by `cal_metric`.  Every tensor operation in
the three `cal_metric`s acts on each batch column independently, so the batched
`cal_metric` is the per-column `cal` mapped over the columns of the prepared
tensors. -/
def call (cal : List ℚ → ℚ → ℚ → Option (List Bool) → ℚ)
    (delays srcLens : Tensor2 ℚ) (target_padding_mask : Option (Tensor2 Bool))
    (batch_first startFromZero : Bool) : Except String (List ℚ) := do
  let (d, s, t, m) ←
    prepare_latency_metric delays srcLens target_padding_mask batch_first startFromZero
  pure ((List.range d.cols).map (fun b =>
    cal (colList d b) (s.entry 0 b) (t.entry 0 b) (m.map (fun mm => colListB mm b))))

end LatencyMetric

/-- Index (0-based) of the first delay that reaches `srcLen`, if any: the
`argmin_i(delays_i = |x|)` of the Average Lagging docstring, read as the first
`i` with `delays_i >= |x|`. -/
def firstReach (srcLen : ℚ) : List ℚ → Option ℕ
  | [] => none
  | d :: ds => if srcLen ≤ d then some 0 else (firstReach srcLen ds).map (· + 1)

/-- The cut-off `tau` of the Average Lagging claim: the 1-based index of the
first delay reaching `srcLen`, or `tgt_len` when no delay reaches it. -/
def tauSpec (srcLen : ℚ) (delays : List ℚ) : ℕ :=
  match firstReach srcLen delays with
  | some i => i + 1
  | none => delays.length

end Latency

namespace Berard

/-- Embedding of the `encoder_padding_mask` construction of
`BerardEncoder.forward` (berard.py lines 328-335): build the `(B, T)` boolean
matrix whose `(b, t)` entry is `t >= output_lengths[b]`
(`arange(T).expand(B, -1) >= output_lengths.view(B, 1).expand(-1, T)`), then
transpose it to `(T, B)`. -/
def encoder_padding_mask (outputSeqLen : ℕ) (outputLengths : List ℕ) :
    Latency.Tensor2 Bool :=
  (Latency.Tensor2.mk outputLengths.length outputSeqLen
    (fun b t => decide (outputLengths.getD b 0 ≤ t))).t

namespace MLPAttention

/-- An `nn.Linear` layer with bias (`encoder_proj`): row `k` of
`W * v + b`. -/
def linearB (W : ℕ → ℕ → ℝ) (b : ℕ → ℝ) (inDim : ℕ) (v : ℕ → ℝ) (k : ℕ) : ℝ :=
  (∑ c ∈ Finset.range inDim, W k c * v c) + b k

/-- An `nn.Linear` layer without bias (`decoder_proj`): row `k` of `W * v`. -/
def linear (W : ℕ → ℕ → ℝ) (inDim : ℕ) (v : ℕ → ℝ) (k : ℕ) : ℝ :=
  ∑ c ∈ Finset.range inDim, W k c * v c

/-- The raw attention score of source position `i` against the decoder state,
for one batch element, following `MLPAttention.forward` (berard.py lines
374-395): `to_scores(tanh(decoder_component + encoder_component))`, where
`encoder_component = encoder_proj(source_hids)` (weight `W_ae`, bias `b_a`),
`decoder_component = decoder_proj(decoder_state)` (weight `W_ad`, no bias) and
`to_scores` has weight `V_a` and no bias.  The `view`/flatten steps of the code
are shape bookkeeping that is identity on one batch element. -/
noncomputable def attn_scores (attDim ctxDim decDim : ℕ)
    (W_ae : ℕ → ℕ → ℝ) (b_a : ℕ → ℝ) (W_ad : ℕ → ℕ → ℝ) (V_a : ℕ → ℝ)
    (dec : ℕ → ℝ) (enc : ℕ → ℕ → ℝ) (i : ℕ) : ℝ :=
  ∑ k ∈ Finset.range attDim,
    V_a k * Real.tanh (linear W_ad decDim dec k + linearB W_ae b_a ctxDim (enc i) k)

/-- Embedding of the rest of `MLPAttention.forward` (berard.py lines 397-412)
on one batch element: scores at masked positions are filled with `-inf` and a
softmax is taken over the source-length dimension.  In exact arithmetic the
exponential of a `-inf`-filled score is weight `0`; torch's all-masked `NaN`
output corresponds to the division-by-zero junk value here.  Returns the
attention-weighted sum of the source hidden states (per channel) and the
normalized scores. -/
noncomputable def forward (attDim ctxDim decDim srcLen : ℕ)
    (W_ae : ℕ → ℕ → ℝ) (b_a : ℕ → ℝ) (W_ad : ℕ → ℕ → ℝ) (V_a : ℕ → ℝ)
    (dec : ℕ → ℝ) (enc : ℕ → ℕ → ℝ) (mask : ℕ → Bool) : (ℕ → ℝ) × (ℕ → ℝ) :=
  let score := attn_scores attDim ctxDim decDim W_ae b_a W_ad V_a dec enc
  let expWeight := fun i => if mask i then 0 else Real.exp (score i)
  let z := ∑ i ∈ Finset.range srcLen, expWeight i
  let normalized := fun i => expWeight i / z
  (fun c => ∑ i ∈ Finset.range srcLen, enc i c * normalized i, normalized)

/-- The score formula exactly as the spec sentence states it:
`alpha_ij = V_a * tanh(W_ae * enc_i + W_ad * dec_j + b_a)`. -/
noncomputable def alphaSpec (attDim ctxDim decDim : ℕ)
    (W_ae : ℕ → ℕ → ℝ) (b_a : ℕ → ℝ) (W_ad : ℕ → ℕ → ℝ) (V_a : ℕ → ℝ)
    (dec : ℕ → ℝ) (enc : ℕ → ℕ → ℝ) (i : ℕ) : ℝ :=
  ∑ k ∈ Finset.range attDim,
    V_a k * Real.tanh ((∑ c ∈ Finset.range ctxDim, W_ae k c * enc i c)
      + (∑ d ∈ Finset.range decDim, W_ad k d * dec d) + b_a k)

end MLPAttention

namespace LSTMDecoder

variable {η χ ι ω : Type}

/-- The inner layer loop of `LSTMDecoder.forward` (berard.py lines 507-529)
for one timestep and one batch element, with dropout disabled.  The LSTM cells
(`nn.LSTMCell`, external framework code) are opaque step functions
`input -> (hidden, cell) -> (hidden, cell)`; the MLP attention is the opaque
`attend` from the first layer's new hidden state to the context vector.
The loop walks the layer list with running index `i`, reading the previous
state at `(i - 1) % num_layers` from the in-place-updated lists (Python's
`(i-1) % n` on `i = 0` is `n - 1`, hence `(i + n - 1) % n` here), writes the
new state at `i`, computes `attention_out` once (when it is still `None`,
i.e. right after the first layer) and then feeds `attention_out` as the next
input.  The last component carries the Python loop variable `hidden`. -/
def runLayers [Inhabited η] [Inhabited χ] (attend : η → ι) (n : ℕ) :
    List (ι → η × χ → η × χ) → ℕ → ι → Option ι → List η → List χ → η →
      List η × List χ × Option ι × η
  | [], _, _, attnOut, hs, cs, lastH => (hs, cs, attnOut, lastH)
  | layer :: rest, i, input, attnOut, hs, cs, _ =>
      let prev := (hs.getD ((i + n - 1) % n) default, cs.getD ((i + n - 1) % n) default)
      let hc := layer input prev
      let hs' := hs.set i hc.1
      let cs' := cs.set i hc.2
      let ctx := attnOut.getD (attend hc.1)
      runLayers attend n rest (i + 1) ctx (some ctx) hs' cs' hc.1

/-- One timestep `j` of `LSTMDecoder.forward`: run the layer loop from the
cached states, collect the new states, the attention output appended to
`attention_outs` and the top-layer hidden appended to `outs`. -/
def timestep [Inhabited η] [Inhabited χ] [Inhabited ι]
    (layers : List (ι → η × χ → η × χ)) (attend : η → ι)
    (x_j : ι) (hs : List η) (cs : List χ) : List η × List χ × ι × η :=
  let r := runLayers attend layers.length layers 0 x_j none hs cs default
  (r.1, r.2.1, (r.2.2.1).getD default, r.2.2.2)

/-- The timestep loop `for j in range(seqlen)` of `LSTMDecoder.forward`:
thread the hidden/cell state lists through the timesteps, collecting for each
timestep the pair (top-layer hidden, attention output). -/
def runSteps [Inhabited η] [Inhabited χ] [Inhabited ι]
    (layers : List (ι → η × χ → η × χ)) (attend : η → ι) :
    List η → List χ → List ι → List η × List χ × List (η × ι)
  | hs, cs, [] => (hs, cs, [])
  | hs, cs, t :: ts =>
      let s := timestep layers attend t hs cs
      let r := runSteps layers attend s.1 s.2.1 ts
      (r.1, r.2.1, (s.2.2.2, s.2.2.1) :: r.2.2)

/-- Embedding of `LSTMDecoder.forward` (berard.py lines 471-562) for one batch
element with dropout disabled.  `tokens` is the embedded
`prev_output_tokens` row; `project` is the (opaque, elementwise-per-timestep)
output head `deep_output_layer` + `tanh` + `output_projection` applied to the
concatenation of top hidden state, attention output and embedding.
`incrementalState` mirrors the Python `incremental_state` argument:
`none` is a full forward pass, `some c` is an incremental call whose cached
state is `c` (`none` before the first call).  When incremental, only the last
token is processed (`prev_output_tokens[:, -1:]`).  The second component is
the updated incremental state (`set_incremental_state` is a no-op when
`incremental_state` is `None`). -/
def forward [Inhabited η] [Inhabited χ] [Inhabited ι]
    (layers : List (ι → η × χ → η × χ)) (attend : η → ι) (project : η → ι → ι → ω)
    (h0 : η) (c0 : χ) (tokens : List ι)
    (incrementalState : Option (Option (List η × List χ))) :
    List ω × Option (Option (List η × List χ)) :=
  let toks := if incrementalState.isSome then tokens.drop (tokens.length - 1) else tokens
  let init : List η × List χ :=
    match incrementalState with
    | some (some st) => st
    | _ => (List.replicate layers.length h0, List.replicate layers.length c0)
  let r := runSteps layers attend init.1 init.2 toks
  (List.zipWith (fun (p : η × ι) e => project p.1 p.2 e) r.2.2 toks,
   match incrementalState with
   | none => none
   | some _ => some (some (r.1, r.2.1)))

/-- Incremental decoding driver: feed the target prefixes to `forward` one
token at a time, threading the persistent incremental state (each call sees
the whole prefix read so far, but processes only its last token). -/
def decodeIncrementally [Inhabited η] [Inhabited χ] [Inhabited ι]
    (layers : List (ι → η × χ → η × χ)) (attend : η → ι) (project : η → ι → ι → ω)
    (h0 : η) (c0 : χ) (cache : Option (List η × List χ)) (done : List ι) :
    List ι → List ω
  | [] => []
  | t :: rest =>
      let r := forward layers attend project h0 c0 (done ++ [t]) (some cache)
      r.1 ++ decodeIncrementally layers attend project h0 c0 r.2.join (done ++ [t]) rest

/-- The layer wiring exactly as the claim describes it: the bottom layer
consumes the state emitted by the top layer at the previous update, the
attention context is computed once from the bottom layer's new hidden state,
every later layer consumes that context as input and the state just emitted by
the layer below it at the same timestep.  Returns the chain of new per-layer
states and the context. -/
def specTimestep [Inhabited η] [Inhabited χ] [Inhabited ι]
    (layers : List (ι → η × χ → η × χ)) (attend : η → ι)
    (x_j : ι) (hs : List η) (cs : List χ) : List (η × χ) × ι :=
  match layers with
  | [] => ([], default)
  | l0 :: rest =>
      let s0 := l0 x_j (hs.getD (hs.length - 1) default, cs.getD (cs.length - 1) default)
      let ctx := attend s0.1
      (rest.scanl (fun s layer => layer ctx s) s0, ctx)

end LSTMDecoder

end Berard

/-! Helper lemmas on lists indexed through `List.range`. -/

namespace Latency

theorem map_eq_range_map {α γ : Type} (g : α → γ) (d : α) (xs : List α) :
    xs.map g = (List.range xs.length).map (fun i => g (xs.getD i d)) := by
  induction xs with
  | nil => rfl
  | cons x xs ih =>
      simp only [List.map_cons, List.length_cons, List.range_succ_eq_map,
        List.map_map]
      refine congrArg (g x :: ·) ?_
      rw [ih]
      exact List.map_congr_left (fun i _ => rfl)

theorem self_eq_range_map {α : Type} (d : α) (xs : List α) :
    xs = (List.range xs.length).map (fun i => xs.getD i d) := by
  conv_lhs => rw [← List.map_id xs]
  exact map_eq_range_map id d xs

theorem zipWith_range_eq_map {α γ : Type} (f : α → ℕ → γ) (d : α) (xs : List α) :
    List.zipWith f xs (List.range xs.length)
      = (List.range xs.length).map (fun i => f (xs.getD i d) i) := by
  induction xs generalizing f with
  | nil => rfl
  | cons x xs ih =>
      simp only [List.length_cons, List.range_succ_eq_map, List.zipWith_cons_cons,
        List.map_cons]
      rw [List.zipWith_map_right, ih (fun a i => f a (i + 1))]
      simp [List.map_map, Nat.succ_eq_add_one]

theorem zipWith_map_range_eq_map {γ δ ε : Type} (f : γ → δ → ε) (g : ℕ → γ)
    (h : ℕ → δ) (n : ℕ) :
    List.zipWith f ((List.range n).map g) ((List.range n).map h)
      = (List.range n).map (fun i => f (g i) (h i)) := by
  induction n with
  | zero => rfl
  | succ n ih =>
      simp only [List.range_succ, List.map_append, List.map_cons, List.map_nil]
      rw [List.zipWith_append _ _ _ _ _ (by simp), ih]
      simp

theorem maskedFill_map_range (g : ℕ → ℚ) (mb : ℕ → Bool) (n : ℕ) :
    maskedFill ((List.range n).map g) ((List.range n).map mb)
      = (List.range n).map (fun i => if mb i then 0 else g i) :=
  zipWith_map_range_eq_map _ g mb n

theorem cons_range_map_dropLast {γ : Type} (a : γ) (g : ℕ → γ) (n : ℕ) :
    (a :: (List.range n).map g).dropLast
      = (List.range n).map (fun i => if i = 0 then a else g (i - 1)) := by
  cases n with
  | zero => rfl
  | succ n =>
      conv_lhs => rw [List.range_succ, List.map_append]
      conv_rhs => rw [List.range_succ_eq_map]
      simp only [List.map_cons, List.map_nil]
      rw [← List.cons_append, List.dropLast_concat]
      simp only [if_pos rfl, List.map_map]
      refine congrArg (a :: ·) ?_
      exact List.map_congr_left (fun i _ => by simp)

theorem sum_map_range_cutoff (g : ℕ → ℚ) (t n : ℕ) (ht : t ≤ n) :
    ((List.range n).map (fun i => if t ≤ i then 0 else g i)).sum
      = ((List.range t).map g).sum := by
  obtain ⟨k, rfl⟩ := Nat.exists_eq_add_of_le ht
  rw [List.range_add, List.map_append, List.sum_append, List.map_map]
  have h1 : ((List.range k).map ((fun i => if t ≤ i then 0 else g i) ∘ (t + ·))).sum
      = (0 : ℚ) := by
    rw [List.sum_eq_zero]
    intro x hx
    simp only [List.mem_map] at hx
    obtain ⟨i, _, rfl⟩ := hx
    simp [Function.comp]
  have h2 : (List.range t).map (fun i => if t ≤ i then 0 else g i)
      = (List.range t).map g := by
    refine List.map_congr_left (fun i hi => ?_)
    rw [List.mem_range] at hi
    simp [Nat.not_le.2 hi]
  rw [h1, h2, add_zero]

theorem countP_range_lt (t n : ℕ) :
    (List.range n).countP (fun i => decide (i < t)) = min t n := by
  induction n with
  | zero => simp
  | succ n ih =>
      rw [List.range_succ, List.countP_append, ih]
      rcases Nat.lt_or_ge n t with h | h
      · simp [List.countP_cons, h]
        omega
      · simp [List.countP_cons, Nat.not_lt.2 h]
        omega

end Latency

namespace Latency.DifferentiableAverageLagging

theorem adjFrom_cons (γ d prev : ℚ) (ds : List ℚ) :
    ∀ i, adjFrom γ (d :: ds) prev (i + 1) = adjFrom γ ds (max (prev + 1 / γ) d) i
  | 0 => by
      simp only [adjFrom, List.getD_cons_succ, List.getD_cons_zero]
      rw [max_comm (prev + 1 / γ) d]
  | i + 1 => by
      show max ((d :: ds).getD (i + 1 + 1) 0) (adjFrom γ (d :: ds) prev (i + 1) + 1 / γ)
          = max (ds.getD (i + 1) 0) (adjFrom γ ds (max (prev + 1 / γ) d) i + 1 / γ)
      rw [adjFrom_cons γ d prev ds i, List.getD_cons_succ]

theorem newDelaysAux_eq (γ : ℚ) (ds : List ℚ) :
    ∀ prev, newDelaysAux γ prev ds = (List.range ds.length).map (adjFrom γ ds prev) := by
  induction ds with
  | nil => intro _; rfl
  | cons d ds ih =>
      intro prev
      simp only [newDelaysAux, List.length_cons, List.range_succ_eq_map,
        List.map_cons, List.map_map]
      refine congrArg₂ (· :: ·) ?_ ?_
      · simp only [adjFrom, List.getD_cons_zero]
        rw [max_comm (prev + 1 / γ) d]
      · rw [ih (max (prev + 1 / γ) d)]
        exact List.map_congr_left (fun i _ => (adjFrom_cons γ d prev ds i).symm)

theorem adjDelays_cons (γ d : ℚ) (ds : List ℚ) :
    ∀ i, adjDelays γ (d :: ds) (i + 1) = adjFrom γ ds d i
  | 0 => by
      simp only [adjDelays, adjFrom, List.getD_cons_succ, List.getD_cons_zero]
  | i + 1 => by
      show max ((d :: ds).getD (i + 1 + 1) 0) (adjDelays γ (d :: ds) (i + 1) + 1 / γ)
          = max (ds.getD (i + 1) 0) (adjFrom γ ds d i + 1 / γ)
      rw [adjDelays_cons γ d ds i, List.getD_cons_succ]

theorem newDelays_eq_range_map (γ : ℚ) (delays : List ℚ) :
    newDelays γ delays = (List.range delays.length).map (adjDelays γ delays) := by
  cases delays with
  | nil => rfl
  | cons d ds =>
      simp only [newDelays, List.length_cons, List.range_succ_eq_map,
        List.map_cons, List.map_map]
      refine congrArg₂ (· :: ·) ?_ ?_
      · simp [adjDelays]
      · rw [newDelaysAux_eq γ ds d]
        exact List.map_congr_left (fun i _ => (adjDelays_cons γ d ds i).symm)

theorem newDelays_length (γ : ℚ) (delays : List ℚ) :
    (newDelays γ delays).length = delays.length := by
  rw [newDelays_eq_range_map]; simp

theorem newDelays_getD (γ : ℚ) (delays : List ℚ) (i : ℕ) (hi : i < delays.length) :
    (newDelays γ delays).getD i 0 = adjDelays γ delays i := by
  rw [newDelays_eq_range_map, List.getD_eq_getElem _ _ (by simpa using hi)]
  simp

end Latency.DifferentiableAverageLagging

namespace Latency

theorem zipWith_map_range_left {γ δ : Type} (f : γ → ℕ → δ) (g : ℕ → γ) (n : ℕ) :
    List.zipWith f ((List.range n).map g) (List.range n)
      = (List.range n).map (fun i => f (g i) i) := by
  simpa using zipWith_map_range_eq_map f g id n

end Latency

/-- C1: for delays, source lengths and target lengths as produced by
`prepare_latency_metric`, `AverageProportion.cal_metric` returns, per batch
element, `AP = (1 / (|x| * |y|)) * Σ_i delays_i`, where positions masked by
the target padding mask contribute `0` to the sum (both with and without a
target padding mask). -/
theorem C1_average_proportion_formula (delays : List ℚ) (srcLen tgtLens : ℚ)
    (mask : List Bool) (hm : mask.length = delays.length) :
    (Latency.AverageProportion.cal_metric delays srcLen tgtLens (some mask)
        = 1 / (srcLen * tgtLens) *
            ((List.range delays.length).map
              (fun i => if mask.getD i false then 0 else delays.getD i 0)).sum)
    ∧ Latency.AverageProportion.cal_metric delays srcLen tgtLens none
        = 1 / (srcLen * tgtLens) *
            ((List.range delays.length).map (fun i => delays.getD i 0)).sum := by
  have hmf : Latency.maskedFill delays mask
      = (List.range delays.length).map
          (fun i => if mask.getD i false then 0 else delays.getD i 0) := by
    conv_lhs => rw [Latency.self_eq_range_map 0 delays,
      Latency.self_eq_range_map false mask, hm]
    exact Latency.maskedFill_map_range _ _ _
  constructor
  · simp only [Latency.AverageProportion.cal_metric]
    rw [hmf, one_div, inv_mul_eq_div]
  · simp only [Latency.AverageProportion.cal_metric]
    rw [one_div, inv_mul_eq_div]
    congr 1
    exact congrArg List.sum (Latency.self_eq_range_map 0 delays)

/-- Witness for C1 at a concrete input. -/
theorem C1_average_proportion_formula_witness :
    ([false, true] : List Bool).length = ([2, 3] : List ℚ).length
    ∧ Latency.AverageProportion.cal_metric [2, 3] 3 2 (some [false, true])
        = 1 / ((3 : ℚ) * 2) *
            ((List.range ([2, 3] : List ℚ).length).map
              (fun i => if ([false, true] : List Bool).getD i false then 0
                else ([2, 3] : List ℚ).getD i 0)).sum :=
  ⟨rfl, (C1_average_proportion_formula [2, 3] 3 2 [false, true] rfl).1⟩

/-- C3: `DifferentiableAverageLagging.cal_metric` computes adjusted delays by
the recurrence `delays'_1 = delays_1`,
`delays'_i = max(delays_i, delays'_(i-1) + 1/gamma)` with
`gamma = |y| / |x| = tgt_lens / src_lens`, and returns
`DAL = (1 / |y|) * Σ_i (delays'_i - (i - 1) / gamma)` over all target
positions, masked positions contributing `0` to the sum (both with and without
a target padding mask). -/
theorem C3_differentiable_average_lagging_formula (delays : List ℚ)
    (srcLen tgtLens : ℚ) (mask : List Bool) (hm : mask.length = delays.length) :
    (Latency.DifferentiableAverageLagging.cal_metric delays srcLen tgtLens (some mask)
        = 1 / tgtLens *
            ((List.range delays.length).map (fun i =>
              if mask.getD i false then 0
              else Latency.DifferentiableAverageLagging.adjDelays
                  (tgtLens / srcLen) delays i - (i : ℚ) / (tgtLens / srcLen))).sum)
    ∧ Latency.DifferentiableAverageLagging.cal_metric delays srcLen tgtLens none
        = 1 / tgtLens *
            ((List.range delays.length).map (fun i =>
              Latency.DifferentiableAverageLagging.adjDelays
                  (tgtLens / srcLen) delays i - (i : ℚ) / (tgtLens / srcLen))).sum := by
  have hdal : List.zipWith (fun d (i : ℕ) => d - (i : ℚ) / (tgtLens / srcLen))
        (Latency.DifferentiableAverageLagging.newDelays (tgtLens / srcLen) delays)
        (List.range delays.length)
      = (List.range delays.length).map (fun i =>
          Latency.DifferentiableAverageLagging.adjDelays (tgtLens / srcLen) delays i
            - (i : ℚ) / (tgtLens / srcLen)) := by
    rw [Latency.DifferentiableAverageLagging.newDelays_eq_range_map]
    exact Latency.zipWith_map_range_left _ _ _
  have hmf : ∀ g : ℕ → ℚ,
      Latency.maskedFill ((List.range delays.length).map g) mask
        = (List.range delays.length).map
            (fun i => if mask.getD i false then 0 else g i) := by
    intro g
    conv_lhs => rw [Latency.self_eq_range_map false mask, hm]
    exact Latency.maskedFill_map_range _ _ _
  constructor
  · simp only [Latency.DifferentiableAverageLagging.cal_metric]
    rw [hdal, hmf, one_div, inv_mul_eq_div]
  · simp only [Latency.DifferentiableAverageLagging.cal_metric]
    rw [hdal, one_div, inv_mul_eq_div]

/-- Witness for C3 at a concrete input. -/
theorem C3_differentiable_average_lagging_formula_witness :
    ([false, true] : List Bool).length = ([0, 2] : List ℚ).length
    ∧ Latency.DifferentiableAverageLagging.cal_metric [0, 2] 2 2 (some [false, true])
        = 1 / (2 : ℚ) *
            ((List.range ([0, 2] : List ℚ).length).map (fun i =>
              if ([false, true] : List Bool).getD i false then 0
              else Latency.DifferentiableAverageLagging.adjDelays
                  ((2 : ℚ) / 2) [0, 2] i - (i : ℚ) / ((2 : ℚ) / 2))).sum :=
  ⟨rfl, (C3_differentiable_average_lagging_formula [0, 2] 2 2 [false, true] rfl).1⟩

/-- C10: for every positive `gamma = |y| / |x|`, the adjusted delays computed
inside `DifferentiableAverageLagging.cal_metric` dominate the input delays and
grow by at least `1/gamma` at each step (hence are strictly increasing). -/
theorem C10_adjusted_delays_monotone (delays : List ℚ) (srcLen tgtLens : ℚ)
    (hγ : 0 < tgtLens / srcLen) :
    (∀ i < delays.length,
        delays.getD i 0
          ≤ (Latency.DifferentiableAverageLagging.newDelays
              (tgtLens / srcLen) delays).getD i 0)
    ∧ (∀ i, i + 1 < delays.length →
        (Latency.DifferentiableAverageLagging.newDelays
            (tgtLens / srcLen) delays).getD i 0 + 1 / (tgtLens / srcLen)
          ≤ (Latency.DifferentiableAverageLagging.newDelays
              (tgtLens / srcLen) delays).getD (i + 1) 0)
    ∧ (∀ i, i + 1 < delays.length →
        (Latency.DifferentiableAverageLagging.newDelays
            (tgtLens / srcLen) delays).getD i 0
          < (Latency.DifferentiableAverageLagging.newDelays
              (tgtLens / srcLen) delays).getD (i + 1) 0) := by
  have hstep : ∀ i, i + 1 < delays.length →
      (Latency.DifferentiableAverageLagging.newDelays
          (tgtLens / srcLen) delays).getD i 0 + 1 / (tgtLens / srcLen)
        ≤ (Latency.DifferentiableAverageLagging.newDelays
            (tgtLens / srcLen) delays).getD (i + 1) 0 := by
    intro i hi
    rw [Latency.DifferentiableAverageLagging.newDelays_getD _ _ _ (by omega),
      Latency.DifferentiableAverageLagging.newDelays_getD _ _ _ hi,
      show Latency.DifferentiableAverageLagging.adjDelays (tgtLens / srcLen) delays (i + 1)
          = max (delays.getD (i + 1) 0)
              (Latency.DifferentiableAverageLagging.adjDelays (tgtLens / srcLen) delays i
                + 1 / (tgtLens / srcLen)) from rfl]
    exact le_max_right _ _
  refine ⟨?_, hstep, ?_⟩
  · intro i hi
    rw [Latency.DifferentiableAverageLagging.newDelays_getD _ _ _ hi]
    cases i with
    | zero => exact le_of_eq rfl
    | succ i =>
        exact le_max_left _ _
  · intro i hi
    exact lt_of_lt_of_le (lt_add_of_pos_right _ (by positivity)) (hstep i hi)

/-- Witness for C10 at a concrete input. -/
theorem C10_adjusted_delays_monotone_witness :
    (0 : ℚ) < 1 / 2
    ∧ (Latency.DifferentiableAverageLagging.newDelays ((1 : ℚ) / 2) [1, 0]).getD 0 0
        + 1 / ((1 : ℚ) / 2)
      ≤ (Latency.DifferentiableAverageLagging.newDelays ((1 : ℚ) / 2) [1, 0]).getD 1 0 :=
  ⟨by norm_num,
   (C10_adjusted_delays_monotone [1, 0] 2 1 (by norm_num)).2.1 0 (by norm_num)⟩

/-- C4: `LatencyInference.__call__` (with `start_from_zero=True`) takes the
per-position maximum of the monotonic steps over the middle dimension, clamps
every delay `d >= src_len` to `src_len - 1` and keeps it otherwise, and
returns a dict whose keys are exactly `differentiable_average_lagging`,
`average_lagging` and `average_proportion`, each value being the corresponding
metric on the clamped delays shifted by `+1` (by `prepare_latency_metric`),
with no target padding mask. -/
theorem C4_latency_inference_dict (chunks : List (List ℚ)) (srcLen : ℚ) :
    Latency.LatencyInference.callElem chunks srcLen
      = [("differentiable_average_lagging",
            Latency.DifferentiableAverageLagging.cal_metric
              (((Latency.LatencyInference.maxDim1 chunks).map
                  (fun d => if srcLen ≤ d then srcLen - 1 else d)).map (· + 1))
              srcLen
              (((Latency.LatencyInference.maxDim1 chunks).map
                  (fun d => if srcLen ≤ d then srcLen - 1 else d)).length : ℚ) none),
         ("average_lagging",
            Latency.AverageLagging.cal_metric
              (((Latency.LatencyInference.maxDim1 chunks).map
                  (fun d => if srcLen ≤ d then srcLen - 1 else d)).map (· + 1))
              srcLen
              (((Latency.LatencyInference.maxDim1 chunks).map
                  (fun d => if srcLen ≤ d then srcLen - 1 else d)).length : ℚ) none),
         ("average_proportion",
            Latency.AverageProportion.cal_metric
              (((Latency.LatencyInference.maxDim1 chunks).map
                  (fun d => if srcLen ≤ d then srcLen - 1 else d)).map (· + 1))
              srcLen
              (((Latency.LatencyInference.maxDim1 chunks).map
                  (fun d => if srcLen ≤ d then srcLen - 1 else d)).length : ℚ) none)] := by
  have hfun : ∀ d : ℚ,
      (if srcLen ≤ d then 0 else d) + (if d < srcLen then 0 else srcLen - 1)
        = if srcLen ≤ d then srcLen - 1 else d := by
    intro d
    rcases le_or_lt srcLen d with h | h
    · rw [if_pos h, if_pos h, if_neg (not_lt.mpr h), zero_add]
    · rw [if_neg (not_le.mpr h), if_neg (not_le.mpr h), if_pos h, add_zero]
  simp only [Latency.LatencyInference.callElem, Latency.callColumn,
    Latency.LatencyInference.clampDelays, hfun]

namespace Latency

theorem firstReach_lt_length (L : ℚ) (ds : List ℚ) (i : ℕ)
    (h : firstReach L ds = some i) : i < ds.length := by
  induction ds generalizing i with
  | nil => simp [firstReach] at h
  | cons d ds ih =>
      simp only [firstReach] at h
      split at h
      · cases h
        simp
      · rw [Option.map_eq_some'] at h
        obtain ⟨j, hj, rfl⟩ := h
        have := ih j hj
        simp only [List.length_cons]
        omega

theorem firstReach_none (L : ℚ) (ds : List ℚ) (h : firstReach L ds = none) :
    ∀ j < ds.length, ¬ L ≤ ds.getD j 0 := by
  induction ds with
  | nil => intro j hj; simp at hj
  | cons d ds ih =>
      simp only [firstReach] at h
      split at h
      · exact absurd h (by simp)
      · next hd =>
          rw [Option.map_eq_none'] at h
          intro j hj
          cases j with
          | zero => simpa using hd
          | succ j =>
              simp only [List.getD_cons_succ]
              exact ih h j (by simpa using hj)

theorem firstReach_some_le (L : ℚ) (ds : List ℚ) (i : ℕ)
    (h : firstReach L ds = some i) : L ≤ ds.getD i 0 := by
  induction ds generalizing i with
  | nil => simp [firstReach] at h
  | cons d ds ih =>
      simp only [firstReach] at h
      split at h
      · next hd =>
          cases h
          simpa using hd
      · rw [Option.map_eq_some'] at h
        obtain ⟨j, hj, rfl⟩ := h
        simp only [List.getD_cons_succ]
        exact ih j hj

theorem firstReach_some_min (L : ℚ) (ds : List ℚ) (i : ℕ)
    (h : firstReach L ds = some i) : ∀ j < i, ¬ L ≤ ds.getD j 0 := by
  induction ds generalizing i with
  | nil => simp [firstReach] at h
  | cons d ds ih =>
      simp only [firstReach] at h
      split at h
      · cases h
        intro j hj
        omega
      · next hd =>
          rw [Option.map_eq_some'] at h
          obtain ⟨k, hk, rfl⟩ := h
          intro j hj
          cases j with
          | zero => simpa using hd
          | succ j =>
              simp only [List.getD_cons_succ]
              exact ih k hk j (by omega)

theorem mono_getD_le (delays : List ℚ) (hmono : delays.Chain' (· ≤ ·))
    (i j : ℕ) (hij : i ≤ j) (hj : j < delays.length) :
    delays.getD i 0 ≤ delays.getD j 0 := by
  rcases eq_or_lt_of_le hij with rfl | hlt
  · exact le_refl _
  · have hp := (List.chain'_iff_pairwise).1 hmono
    rw [List.pairwise_iff_getElem] at hp
    have hr := hp i j (by omega) hj hlt
    rw [List.getD_eq_getElem _ _ (by omega), List.getD_eq_getElem _ _ hj]
    exact hr

theorem tauSpec_pos (L : ℚ) (delays : List ℚ) (h : 0 < delays.length) :
    0 < tauSpec L delays := by
  cases hfr : firstReach L delays with
  | none =>
      have ht : tauSpec L delays = delays.length := by unfold tauSpec; rw [hfr]
      omega
  | some i =>
      have ht : tauSpec L delays = i + 1 := by unfold tauSpec; rw [hfr]
      omega

theorem tauSpec_le_length (L : ℚ) (delays : List ℚ) :
    tauSpec L delays ≤ delays.length := by
  cases hfr : firstReach L delays with
  | none =>
      have ht : tauSpec L delays = delays.length := by unfold tauSpec; rw [hfr]
      omega
  | some i =>
      have ht : tauSpec L delays = i + 1 := by unfold tauSpec; rw [hfr]
      have := firstReach_lt_length L delays i hfr
      omega

theorem reach_iff (L : ℚ) (delays : List ℚ) (hmono : delays.Chain' (· ≤ ·))
    (j : ℕ) (hj : j + 1 < delays.length) :
    (L ≤ delays.getD j 0) ↔ tauSpec L delays ≤ j + 1 := by
  cases hfr : firstReach L delays with
  | none =>
      have ht : tauSpec L delays = delays.length := by unfold tauSpec; rw [hfr]
      rw [ht]
      have hnone := firstReach_none L delays hfr
      constructor
      · intro h
        exact absurd h (hnone j (by omega))
      · intro h
        exact absurd hj (not_lt.mpr h)
  | some i =>
      have ht : tauSpec L delays = i + 1 := by unfold tauSpec; rw [hfr]
      rw [ht]
      constructor
      · intro h
        by_contra hc
        push_neg at hc
        exact (firstReach_some_min L delays i hfr j (by omega)) h
      · intro h
        exact le_trans (firstReach_some_le L delays i hfr)
          (mono_getD_le delays hmono i j (by omega) (by omega))

theorem lagging_mask_eq (L : ℚ) (delays : List ℚ)
    (hmono : delays.Chain' (· ≤ ·)) :
    (false :: delays.map (fun d => decide (L ≤ d))).dropLast
      = (List.range delays.length).map
          (fun i => decide (tauSpec L delays ≤ i)) := by
  rw [map_eq_range_map (fun d => decide (L ≤ d)) 0 delays, cons_range_map_dropLast]
  refine List.map_congr_left (fun i hi => ?_)
  rw [List.mem_range] at hi
  cases i with
  | zero =>
      have := tauSpec_pos L delays (by omega)
      simp only [if_pos rfl]
      symm
      simpa using by omega
  | succ k =>
      rw [if_neg (Nat.succ_ne_zero k), Nat.succ_sub_one]
      exact decide_eq_decide.mpr (reach_iff L delays hmono k hi)

theorem count_false_range_map (t n : ℕ) (h : t ≤ n) :
    ((List.range n).map (fun i => decide (t ≤ i))).count false = t := by
  rw [List.count_eq_countP, List.countP_map]
  have hfn : ((fun a => a == false) ∘ fun i => decide (t ≤ i))
      = fun i => decide (i < t) := by
    funext i
    by_cases h' : t ≤ i
    · simp [Function.comp, h', Nat.not_lt.mpr h']
    · simp [Function.comp, h', Nat.lt_of_not_le h']
  rw [hfn, countP_range_lt]
  omega

end Latency

/-- C2: for monotonically non-decreasing delays in `[1, |x|]`,
`AverageLagging.cal_metric` returns
`AL = (1 / tau) * Σ_(i=1)^tau (delays_i - (i - 1) / gamma)` with
`gamma = |y| / |x|`, where `tau` is the 1-based index of the first target
position whose delay reaches `|x|` (included in the sum), or `tgt_len` when no
delay reaches `|x|` (all positions summed). -/
theorem C2_average_lagging_formula (delays : List ℚ) (srcLen tgtLens : ℚ)
    (mask : Option (List Bool)) (hmono : delays.Chain' (· ≤ ·))
    (_hbounds : ∀ d ∈ delays, 1 ≤ d ∧ d ≤ srcLen) :
    Latency.AverageLagging.cal_metric delays srcLen tgtLens mask
      = 1 / (Latency.tauSpec srcLen delays : ℚ) *
          ((List.range (Latency.tauSpec srcLen delays)).map (fun i =>
            delays.getD i 0 - (i : ℚ) / (tgtLens / srcLen))).sum := by
  have hτ := Latency.tauSpec_le_length srcLen delays
  simp only [Latency.AverageLagging.cal_metric]
  rw [Latency.lagging_mask_eq srcLen delays hmono,
    Latency.zipWith_range_eq_map _ 0 delays,
    Latency.maskedFill_map_range]
  simp only [decide_eq_true_eq]
  rw [Latency.sum_map_range_cutoff _ _ _ hτ,
    Latency.count_false_range_map _ _ hτ,
    one_div, inv_mul_eq_div]

/-- Witness for C2 at a concrete input. -/
theorem C2_average_lagging_formula_witness :
    ([1, 2, 2] : List ℚ).Chain' (· ≤ ·)
    ∧ (∀ d ∈ ([1, 2, 2] : List ℚ), 1 ≤ d ∧ d ≤ 2)
    ∧ Latency.AverageLagging.cal_metric [1, 2, 2] 2 3 none
        = 1 / (Latency.tauSpec 2 [1, 2, 2] : ℚ) *
            ((List.range (Latency.tauSpec 2 [1, 2, 2])).map (fun i =>
              ([1, 2, 2] : List ℚ).getD i 0 - (i : ℚ) / ((3 : ℚ) / 2))).sum :=
  ⟨by norm_num [List.chain'_cons], by decide,
   C2_average_lagging_formula [1, 2, 2] 2 3 none
     (by norm_num [List.chain'_cons]) (by decide)⟩

namespace Latency

theorem sum_boole_ge (T len : ℕ) (h : len ≤ T) :
    (∑ t ∈ Finset.range T, (if len ≤ t then 1 else 0)) = T - len := by
  induction T with
  | zero =>
      simp only [Finset.range_zero, Finset.sum_empty]
      omega
  | succ T ih =>
      rw [Finset.sum_range_succ]
      rcases Nat.lt_or_ge T len with h' | h'
      · have hz : (∑ t ∈ Finset.range T, (if len ≤ t then 1 else 0)) = 0 :=
          Finset.sum_eq_zero (fun t ht => by
            rw [Finset.mem_range] at ht
            rw [if_neg (by omega)])
        rw [hz, if_neg (by omega)]
        omega
      · rw [ih h', if_pos h']
        omega

end Latency

/-- C9: the `(T, B)` encoder padding mask built by `BerardEncoder.forward` is
`true` at `(t, b)` exactly when `t` is at or beyond sequence `b`'s output
length, and `LatencyMetric.length_from_padding_mask` with `batch_first=False`
recovers from it, for each batch element, exactly that output length (the
number of unmasked positions in its column). -/
theorem C9_encoder_mask_length_inverse (T : ℕ) (outputLengths : List ℕ)
    (hT : ∀ l ∈ outputLengths, l ≤ T) :
    (∀ t b, (Berard.encoder_padding_mask T outputLengths).entry t b = true
        ↔ outputLengths.getD b 0 ≤ t)
    ∧ (∀ b, (Latency.length_from_padding_mask
            (Berard.encoder_padding_mask T outputLengths) false).entry 0 b
        = outputLengths.getD b 0) := by
  have hle : ∀ b, outputLengths.getD b 0 ≤ T := by
    intro b
    rcases Nat.lt_or_ge b outputLengths.length with hb | hb
    · refine hT _ ?_
      rw [List.getD_eq_getElem _ _ hb]
      exact List.getElem_mem hb
    · rw [List.getD_eq_default _ _ hb]
      omega
  constructor
  · intro t b
    simp [Berard.encoder_padding_mask, Latency.Tensor2.t]
  · intro b
    have hb := hle b
    simp only [Latency.length_from_padding_mask, Berard.encoder_padding_mask,
      Latency.Tensor2.t]
    rw [if_neg (by simp)]
    dsimp only
    simp only [decide_eq_true_eq]
    rw [Latency.sum_boole_ge T _ hb]
    omega

/-- Witness for C9 at a concrete input. -/
theorem C9_encoder_mask_length_inverse_witness :
    (∀ l ∈ ([2, 0, 3] : List ℕ), l ≤ 3)
    ∧ (Latency.length_from_padding_mask
          (Berard.encoder_padding_mask 3 [2, 0, 3]) false).entry 0 0
        = ([2, 0, 3] : List ℕ).getD 0 0 :=
  ⟨by decide, (C9_encoder_mask_length_inverse 3 [2, 0, 3] (by decide)).2 0⟩

/-- C5: calling a latency metric (`LatencyMetric.__call__`, hence any of
`AverageProportion`, `AverageLagging`, `DifferentiableAverageLagging`) with
`batch_first=False` — the default — always raises before computing anything,
because the batch-size locals compared by `assert bsz == bsz_1` are bound only
inside the `if batch_first:` branch; with `batch_first=True` and matching
batch sizes (and, when a target padding mask is given, matching mask sizes)
the call returns normally. -/
theorem C5_batch_first_required :
    (∀ (cal : List ℚ → ℚ → ℚ → Option (List Bool) → ℚ)
       (delays srcLens : Latency.Tensor2 ℚ)
       (tpm : Option (Latency.Tensor2 Bool)) (z : Bool),
       (Latency.LatencyMetric.call cal delays srcLens tpm false z).isOk = false)
    ∧ (∀ (cal : List ℚ → ℚ → ℚ → Option (List Bool) → ℚ)
       (delays srcLens : Latency.Tensor2 ℚ) (z : Bool),
       delays.rows = srcLens.rows →
       (Latency.LatencyMetric.call cal delays srcLens none true z).isOk = true)
    ∧ (∀ (cal : List ℚ → ℚ → ℚ → Option (List Bool) → ℚ)
       (delays srcLens : Latency.Tensor2 ℚ) (m : Latency.Tensor2 Bool) (z : Bool),
       delays.rows = srcLens.rows → m.cols = delays.cols → m.rows = delays.rows →
       (Latency.LatencyMetric.call cal delays srcLens (some m) true z).isOk = true) := by
  refine ⟨fun cal delays srcLens tpm z => rfl, ?_, ?_⟩
  · intro cal delays srcLens z h
    cases z <;>
      simp [Latency.LatencyMetric.call, Latency.LatencyMetric.prepare_latency_metric,
        Latency.Tensor2.t, h, Except.isOk, Except.toBool, pure, Except.pure,
        Bind.bind, Except.bind]
  · intro cal delays srcLens m z h1 h2 h3
    cases z <;>
      simp [Latency.LatencyMetric.call, Latency.LatencyMetric.prepare_latency_metric,
        Latency.Tensor2.t, h1, h2, h3, Except.isOk, Except.toBool, pure, Except.pure,
        Bind.bind, Except.bind]

/-- Witness for C5 at concrete inputs (instantiating the metric with
`AverageProportion.cal_metric`). -/
theorem C5_batch_first_required_witness :
    (Latency.LatencyMetric.call Latency.AverageProportion.cal_metric
        ⟨2, 3, fun _ _ => 0⟩ ⟨2, 1, fun _ _ => 4⟩ none false true).isOk = false
    ∧ (2 : ℕ) = 2
    ∧ (Latency.LatencyMetric.call Latency.AverageProportion.cal_metric
        ⟨2, 3, fun _ _ => 0⟩ ⟨2, 1, fun _ _ => 4⟩ none true true).isOk = true
    ∧ (Latency.LatencyMetric.call Latency.AverageProportion.cal_metric
        ⟨2, 3, fun _ _ => 0⟩ ⟨2, 1, fun _ _ => 4⟩
        (some ⟨2, 3, fun _ _ => false⟩) true true).isOk = true :=
  ⟨C5_batch_first_required.1 Latency.AverageProportion.cal_metric
      ⟨2, 3, fun _ _ => 0⟩ ⟨2, 1, fun _ _ => 4⟩ none true,
   rfl,
   C5_batch_first_required.2.1 Latency.AverageProportion.cal_metric
      ⟨2, 3, fun _ _ => 0⟩ ⟨2, 1, fun _ _ => 4⟩ true rfl,
   C5_batch_first_required.2.2 Latency.AverageProportion.cal_metric
      ⟨2, 3, fun _ _ => 0⟩ ⟨2, 1, fun _ _ => 4⟩ ⟨2, 3, fun _ _ => false⟩ true
      rfl rfl rfl⟩

namespace Berard.LSTMDecoder

theorem take_set_succ {α : Type} (l : List α) (i : ℕ) (v : α) (h : i < l.length) :
    (l.set i v).take (i + 1) = l.take i ++ [v] := by
  induction l generalizing i with
  | nil => simp at h
  | cons a l ih =>
      cases i with
      | zero => simp
      | succ i =>
          simp only [List.set_cons_succ, List.take_succ_cons, List.cons_append]
          rw [ih i (by simpa using h)]

theorem getD_set_self {α : Type} (l : List α) (i : ℕ) (v d : α) (h : i < l.length) :
    (l.set i v).getD i d = v := by
  rw [List.getD_eq_getElem _ _ (by simpa using h)]
  exact List.getElem_set_self (by simpa using h)

theorem scanl_cons_self {α β : Type} (f : β → α → β) (b : β) (l : List α) :
    l.scanl f b = b :: (l.scanl f b).drop 1 := by
  cases l <;> rfl

theorem scanl_getLastD_irrel {α β : Type} (f : β → α → β) (b : β) (l : List α)
    (x y : β) : (l.scanl f b).getLastD x = (l.scanl f b).getLastD y := by
  rw [scanl_cons_self f b l, List.getLastD_cons, scanl_cons_self f b l,
    List.getLastD_cons]

theorem runLayers_cons {η χ ι : Type} [Inhabited η] [Inhabited χ]
    (attend : η → ι) (n : ℕ) (layer : ι → η × χ → η × χ)
    (rest : List (ι → η × χ → η × χ)) (i : ℕ) (input : ι) (aO : Option ι)
    (hs : List η) (cs : List χ) (lh : η) :
    runLayers attend n (layer :: rest) i input aO hs cs lh
      = (let hc := layer input (hs.getD ((i + n - 1) % n) default,
                                cs.getD ((i + n - 1) % n) default)
         let ctx := aO.getD (attend hc.1)
         runLayers attend n rest (i + 1) ctx (some ctx) (hs.set i hc.1)
           (cs.set i hc.2) hc.1) := rfl

theorem runLayers_spec {η χ ι : Type} [Inhabited η] [Inhabited χ]
    (attend : η → ι) (n : ℕ) (rest : List (ι → η × χ → η × χ)) :
    ∀ (i : ℕ) (hs : List η) (cs : List χ) (sPrev : η × χ) (ctx : ι),
      hs.length = n → cs.length = n → i + rest.length = n → 1 ≤ i →
      hs.getD (i - 1) default = sPrev.1 → cs.getD (i - 1) default = sPrev.2 →
      runLayers attend n rest i ctx (some ctx) hs cs sPrev.1
        = (hs.take i
              ++ ((rest.scanl (fun s layer => layer ctx s) sPrev).drop 1).map Prod.fst,
           cs.take i
              ++ ((rest.scanl (fun s layer => layer ctx s) sPrev).drop 1).map Prod.snd,
           some ctx,
           ((rest.scanl (fun s layer => layer ctx s) sPrev).getLastD sPrev).1) := by
  induction rest with
  | nil =>
      intro i hs cs sPrev ctx hh hcl hn _ _ _
      have hn' : i = n := by simpa using hn
      have h1 : hs.take i = hs := by
        rw [show i = hs.length by omega]
        exact List.take_length hs
      have h2 : cs.take i = cs := by
        rw [show i = cs.length by omega]
        exact List.take_length cs
      simp [runLayers, List.scanl_nil, h1, h2]
  | cons layer rest ih =>
      intro i hs cs sPrev ctx hh hcl hn hi hgh hgc
      have hn' : i + rest.length + 1 = n := by simpa using hn
      have hmod : (i + n - 1) % n = i - 1 := by
        rw [show i + n - 1 = n + (i - 1) by omega, Nat.add_mod_left]
        exact Nat.mod_eq_of_lt (by omega)
      rw [runLayers_cons]
      simp only [hmod, hgh, hgc, Prod.mk.eta, Option.getD_some]
      rw [ih (i + 1) (hs.set i (layer ctx sPrev).1) (cs.set i (layer ctx sPrev).2)
        (layer ctx sPrev) ctx (by simpa using hh) (by simpa using hcl)
        (by omega) (by omega)
        (by
          simpa using getD_set_self hs i (layer ctx sPrev).1 default (by omega))
        (by
          simpa using getD_set_self cs i (layer ctx sPrev).2 default (by omega))]
      rw [List.scanl_cons]
      simp only [List.singleton_append, List.drop_succ_cons, List.drop_zero,
        Prod.mk.injEq]
      refine ⟨?_, ?_, trivial, ?_⟩
      · rw [take_set_succ hs i _ (by omega), List.append_assoc, List.singleton_append]
        conv_rhs =>
          rw [scanl_cons_self (fun s layer => layer ctx s) (layer ctx sPrev) rest]
        rw [List.map_cons]
      · rw [take_set_succ cs i _ (by omega), List.append_assoc, List.singleton_append]
        conv_rhs =>
          rw [scanl_cons_self (fun s layer => layer ctx s) (layer ctx sPrev) rest]
        rw [List.map_cons]
      · rw [List.getLastD_cons]
        exact congrArg Prod.fst
          (scanl_getLastD_irrel (fun s layer => layer ctx s) (layer ctx sPrev) rest
            (layer ctx sPrev) sPrev)

end Berard.LSTMDecoder

/-- C8: in the `LSTMDecoder.forward` timestep loop, each layer `i > 0`
consumes the state just emitted by layer `i-1` at the same timestep, the
bottom layer consumes the state emitted by the top layer at the previous
update, the attention context is computed once per timestep from the first
layer's new hidden state and is the input of every layer after the first, and
the top layer's new hidden state is the timestep's collected output: the
in-place loop of `timestep` equals the chain recurrence `specTimestep`. -/
theorem C8_layer_wiring {η χ ι : Type} [Inhabited η] [Inhabited χ] [Inhabited ι]
    (layers : List (ι → η × χ → η × χ)) (attend : η → ι) (x_j : ι)
    (hs : List η) (cs : List χ)
    (h1 : hs.length = layers.length) (h2 : cs.length = layers.length)
    (h3 : 1 ≤ layers.length) :
    Berard.LSTMDecoder.timestep layers attend x_j hs cs
      = ((Berard.LSTMDecoder.specTimestep layers attend x_j hs cs).1.map Prod.fst,
         (Berard.LSTMDecoder.specTimestep layers attend x_j hs cs).1.map Prod.snd,
         (Berard.LSTMDecoder.specTimestep layers attend x_j hs cs).2,
         (((Berard.LSTMDecoder.specTimestep layers attend x_j hs cs).1).getLastD
             default).1) := by
  cases layers with
  | nil => simp at h3
  | cons l0 rest =>
      have hlen : (l0 :: rest).length = rest.length + 1 := by simp
      have hmod : ((l0 :: rest).length - 1) % (l0 :: rest).length
          = (l0 :: rest).length - 1 := Nat.mod_eq_of_lt (by omega)
      have e1 : hs.length - 1 = (l0 :: rest).length - 1 := by omega
      have e2 : cs.length - 1 = (l0 :: rest).length - 1 := by omega
      simp only [Berard.LSTMDecoder.timestep, Berard.LSTMDecoder.specTimestep]
      rw [Berard.LSTMDecoder.runLayers_cons]
      simp only [Nat.zero_add, Option.getD_none, e1, e2]
      simp only [hmod]
      rw [Berard.LSTMDecoder.runLayers_spec attend (l0 :: rest).length rest 1
        (hs.set 0 (l0 x_j (hs.getD ((l0 :: rest).length - 1) default,
            cs.getD ((l0 :: rest).length - 1) default)).1)
        (cs.set 0 (l0 x_j (hs.getD ((l0 :: rest).length - 1) default,
            cs.getD ((l0 :: rest).length - 1) default)).2)
        (l0 x_j (hs.getD ((l0 :: rest).length - 1) default,
            cs.getD ((l0 :: rest).length - 1) default))
        (attend (l0 x_j (hs.getD ((l0 :: rest).length - 1) default,
            cs.getD ((l0 :: rest).length - 1) default)).1)
        (by simpa using h1) (by simpa using h2) (by omega) (by omega)
        (by
          simpa using Berard.LSTMDecoder.getD_set_self hs 0 _ default (by omega))
        (by
          simpa using Berard.LSTMDecoder.getD_set_self cs 0 _ default (by omega))]
      simp only [Prod.mk.injEq]
      refine ⟨?_, ?_, rfl, ?_⟩
      · rw [Berard.LSTMDecoder.take_set_succ hs 0 _ (by omega)]
        simp only [List.take_zero, List.nil_append, List.singleton_append]
        conv_rhs =>
          rw [Berard.LSTMDecoder.scanl_cons_self
            (fun s layer => layer (attend (l0 x_j (hs.getD ((l0 :: rest).length - 1)
              default, cs.getD ((l0 :: rest).length - 1) default)).1) s)
            (l0 x_j (hs.getD ((l0 :: rest).length - 1) default,
              cs.getD ((l0 :: rest).length - 1) default)) rest]
        rw [List.map_cons]
      · rw [Berard.LSTMDecoder.take_set_succ cs 0 _ (by omega)]
        simp only [List.take_zero, List.nil_append, List.singleton_append]
        conv_rhs =>
          rw [Berard.LSTMDecoder.scanl_cons_self
            (fun s layer => layer (attend (l0 x_j (hs.getD ((l0 :: rest).length - 1)
              default, cs.getD ((l0 :: rest).length - 1) default)).1) s)
            (l0 x_j (hs.getD ((l0 :: rest).length - 1) default,
              cs.getD ((l0 :: rest).length - 1) default)) rest]
        rw [List.map_cons]
      · exact congrArg Prod.fst
          (Berard.LSTMDecoder.scanl_getLastD_irrel _ _ rest _ default)

/-- Witness for C8 at a concrete input (two concrete cells over `ℚ`). -/
theorem C8_layer_wiring_witness :
    ([(1 : ℚ), 2].length
        = ([fun (x : ℚ) (s : ℚ × ℚ) => (x + s.1, s.2),
            fun (x : ℚ) (s : ℚ × ℚ) => (x * s.1, x)] :
            List (ℚ → ℚ × ℚ → ℚ × ℚ)).length)
    ∧ ([(3 : ℚ), 4].length
        = ([fun (x : ℚ) (s : ℚ × ℚ) => (x + s.1, s.2),
            fun (x : ℚ) (s : ℚ × ℚ) => (x * s.1, x)] :
            List (ℚ → ℚ × ℚ → ℚ × ℚ)).length)
    ∧ (1 ≤ ([fun (x : ℚ) (s : ℚ × ℚ) => (x + s.1, s.2),
            fun (x : ℚ) (s : ℚ × ℚ) => (x * s.1, x)] :
            List (ℚ → ℚ × ℚ → ℚ × ℚ)).length)
    ∧ Berard.LSTMDecoder.timestep
        [fun (x : ℚ) (s : ℚ × ℚ) => (x + s.1, s.2),
         fun (x : ℚ) (s : ℚ × ℚ) => (x * s.1, x)]
        (fun h => h + 10) 5 [1, 2] [3, 4]
      = ((Berard.LSTMDecoder.specTimestep
            [fun (x : ℚ) (s : ℚ × ℚ) => (x + s.1, s.2),
             fun (x : ℚ) (s : ℚ × ℚ) => (x * s.1, x)]
            (fun h => h + 10) 5 [1, 2] [3, 4]).1.map Prod.fst,
         (Berard.LSTMDecoder.specTimestep
            [fun (x : ℚ) (s : ℚ × ℚ) => (x + s.1, s.2),
             fun (x : ℚ) (s : ℚ × ℚ) => (x * s.1, x)]
            (fun h => h + 10) 5 [1, 2] [3, 4]).1.map Prod.snd,
         (Berard.LSTMDecoder.specTimestep
            [fun (x : ℚ) (s : ℚ × ℚ) => (x + s.1, s.2),
             fun (x : ℚ) (s : ℚ × ℚ) => (x * s.1, x)]
            (fun h => h + 10) 5 [1, 2] [3, 4]).2,
         ((Berard.LSTMDecoder.specTimestep
            [fun (x : ℚ) (s : ℚ × ℚ) => (x + s.1, s.2),
             fun (x : ℚ) (s : ℚ × ℚ) => (x * s.1, x)]
            (fun h => h + 10) 5 [1, 2] [3, 4]).1.getLastD default).1) :=
  ⟨rfl, rfl, by decide,
   C8_layer_wiring
     [fun (x : ℚ) (s : ℚ × ℚ) => (x + s.1, s.2),
      fun (x : ℚ) (s : ℚ × ℚ) => (x * s.1, x)]
     (fun h => h + 10) 5 [1, 2] [3, 4] rfl rfl (by decide)⟩

namespace Berard.LSTMDecoder

theorem drop_len_concat {ι : Type} (done : List ι) (t : ι) :
    (done ++ [t]).drop ((done ++ [t]).length - 1) = [t] := by
  have h : (done ++ [t]).length - 1 = done.length := by simp
  rw [h, List.drop_left]

theorem forward_incremental_step {η χ ι ω : Type}
    [Inhabited η] [Inhabited χ] [Inhabited ι]
    (layers : List (ι → η × χ → η × χ)) (attend : η → ι)
    (project : η → ι → ι → ω) (h0 : η) (c0 : χ)
    (done : List ι) (t : ι) (hs : List η) (cs : List χ) :
    forward layers attend project h0 c0 (done ++ [t]) (some (some (hs, cs)))
      = ([project (timestep layers attend t hs cs).2.2.2
            (timestep layers attend t hs cs).2.2.1 t],
         some (some ((timestep layers attend t hs cs).1,
            (timestep layers attend t hs cs).2.1))) := by
  simp [forward, drop_len_concat, runSteps]

theorem decodeIncrementally_eq {η χ ι ω : Type}
    [Inhabited η] [Inhabited χ] [Inhabited ι]
    (layers : List (ι → η × χ → η × χ)) (attend : η → ι)
    (project : η → ι → ι → ω) (h0 : η) (c0 : χ) :
    ∀ (rest done : List ι) (hs : List η) (cs : List χ),
      decodeIncrementally layers attend project h0 c0 (some (hs, cs)) done rest
        = List.zipWith (fun (p : η × ι) e => project p.1 p.2 e)
            (runSteps layers attend hs cs rest).2.2 rest := by
  intro rest
  induction rest with
  | nil => intro done hs cs; rfl
  | cons t rest ih =>
      intro done hs cs
      simp only [decodeIncrementally, forward_incremental_step]
      rw [show (some (some ((timestep layers attend t hs cs).1,
            (timestep layers attend t hs cs).2.1))).join
          = some ((timestep layers attend t hs cs).1,
            (timestep layers attend t hs cs).2.1) from rfl]
      rw [ih (done ++ [t]) (timestep layers attend t hs cs).1
        (timestep layers attend t hs cs).2.1]
      simp [runSteps]

end Berard.LSTMDecoder

/-- C7: with dropout disabled, feeding `LSTMDecoder.forward` the target
prefixes one token at a time with a persistent incremental state (each call
processes only its last token and resumes from the cached per-layer hidden and
cell states) produces, step by step, exactly the outputs of one full forward
pass over the whole prefix with `incremental_state=None`. -/
theorem C7_incremental_equals_full {η χ ι ω : Type}
    [Inhabited η] [Inhabited χ] [Inhabited ι]
    (layers : List (ι → η × χ → η × χ)) (attend : η → ι)
    (project : η → ι → ι → ω) (h0 : η) (c0 : χ) (tokens : List ι) :
    Berard.LSTMDecoder.decodeIncrementally layers attend project h0 c0 none [] tokens
      = (Berard.LSTMDecoder.forward layers attend project h0 c0 tokens none).1 := by
  cases tokens with
  | nil => rfl
  | cons t rest =>
      have hfwd : Berard.LSTMDecoder.forward layers attend project h0 c0
            ([] ++ [t]) (some none)
          = ([project (Berard.LSTMDecoder.timestep layers attend t
                  (List.replicate layers.length h0)
                  (List.replicate layers.length c0)).2.2.2
                (Berard.LSTMDecoder.timestep layers attend t
                  (List.replicate layers.length h0)
                  (List.replicate layers.length c0)).2.2.1 t],
             some (some ((Berard.LSTMDecoder.timestep layers attend t
                  (List.replicate layers.length h0)
                  (List.replicate layers.length c0)).1,
                (Berard.LSTMDecoder.timestep layers attend t
                  (List.replicate layers.length h0)
                  (List.replicate layers.length c0)).2.1))) := rfl
      simp only [Berard.LSTMDecoder.decodeIncrementally, hfwd]
      rw [show (some (some ((Berard.LSTMDecoder.timestep layers attend t
            (List.replicate layers.length h0)
            (List.replicate layers.length c0)).1,
          (Berard.LSTMDecoder.timestep layers attend t
            (List.replicate layers.length h0)
            (List.replicate layers.length c0)).2.1))).join
          = some ((Berard.LSTMDecoder.timestep layers attend t
            (List.replicate layers.length h0)
            (List.replicate layers.length c0)).1,
          (Berard.LSTMDecoder.timestep layers attend t
            (List.replicate layers.length h0)
            (List.replicate layers.length c0)).2.1) from rfl]
      rw [Berard.LSTMDecoder.decodeIncrementally_eq layers attend project h0 c0
        rest ([] ++ [t])
        (Berard.LSTMDecoder.timestep layers attend t
          (List.replicate layers.length h0) (List.replicate layers.length c0)).1
        (Berard.LSTMDecoder.timestep layers attend t
          (List.replicate layers.length h0) (List.replicate layers.length c0)).2.1]
      simp [Berard.LSTMDecoder.forward, Berard.LSTMDecoder.runSteps]

/-- C6 counterexample: with every source position padded (here `src_len = 1`
and an all-`true` mask), the scores returned by `MLPAttention.forward` do not
sum to 1 over the source positions, contrary to the claim's unconditional
softmax property: every exponential weight is masked to `0`, so the softmax
normalizer is `0` (torch produces `NaN` there; in the exact-arithmetic
embedding the division by zero yields `0`, and the sum is `0`). -/
theorem C6_mlp_attention_counterexample :
    (∑ i ∈ Finset.range 1,
        (Berard.MLPAttention.forward 1 1 1 1 (fun _ _ => 0) (fun _ => 0)
          (fun _ _ => 0) (fun _ => 0) (fun _ => 0) (fun _ _ => 0)
          (fun _ => true)).2 i) ≠ 1 := by
  simp [Berard.MLPAttention.forward]

/-- C6 (amended): `MLPAttention.forward` scores each source position by
`alpha_i = V_a * tanh(W_ae * enc_i + W_ad * dec + b_a)`, fills masked
positions and softmax-normalizes over source positions; whenever at least one
source position is unpadded, the returned scores are non-negative, sum to `1`
over the source positions and are `0` at every padded position, and the
returned context is the attention-weighted sum of the source hidden states. -/
theorem C6_mlp_attention_softmax (attDim ctxDim decDim srcLen : ℕ)
    (W_ae : ℕ → ℕ → ℝ) (b_a : ℕ → ℝ) (W_ad : ℕ → ℕ → ℝ) (V_a : ℕ → ℝ)
    (dec : ℕ → ℝ) (enc : ℕ → ℕ → ℝ) (mask : ℕ → Bool)
    (h : ∃ i ∈ Finset.range srcLen, mask i = false) :
    (∀ i, Berard.MLPAttention.attn_scores attDim ctxDim decDim
          W_ae b_a W_ad V_a dec enc i
        = Berard.MLPAttention.alphaSpec attDim ctxDim decDim
            W_ae b_a W_ad V_a dec enc i)
    ∧ (∀ i, 0 ≤ (Berard.MLPAttention.forward attDim ctxDim decDim srcLen
          W_ae b_a W_ad V_a dec enc mask).2 i)
    ∧ (∑ i ∈ Finset.range srcLen,
          (Berard.MLPAttention.forward attDim ctxDim decDim srcLen
            W_ae b_a W_ad V_a dec enc mask).2 i) = 1
    ∧ (∀ i, mask i = true →
        (Berard.MLPAttention.forward attDim ctxDim decDim srcLen
          W_ae b_a W_ad V_a dec enc mask).2 i = 0)
    ∧ (∀ c, (Berard.MLPAttention.forward attDim ctxDim decDim srcLen
          W_ae b_a W_ad V_a dec enc mask).1 c
        = ∑ i ∈ Finset.range srcLen,
            enc i c * (Berard.MLPAttention.forward attDim ctxDim decDim srcLen
              W_ae b_a W_ad V_a dec enc mask).2 i) := by
  set score := Berard.MLPAttention.attn_scores attDim ctxDim decDim
    W_ae b_a W_ad V_a dec enc with hscore
  set w : ℕ → ℝ := fun i => if mask i then 0 else Real.exp (score i) with hw
  have hwnn : ∀ i, 0 ≤ w i := by
    intro i
    rw [hw]
    dsimp only
    split
    · exact le_refl 0
    · exact (Real.exp_pos _).le
  have hz : 0 < ∑ i ∈ Finset.range srcLen, w i := by
    obtain ⟨i0, hi0, hm0⟩ := h
    refine Finset.sum_pos' (fun i _ => hwnn i) ⟨i0, hi0, ?_⟩
    rw [hw]
    dsimp only
    rw [hm0]
    simp [Real.exp_pos]
  have hsnd : (Berard.MLPAttention.forward attDim ctxDim decDim srcLen
        W_ae b_a W_ad V_a dec enc mask).2
      = fun i => w i / ∑ j ∈ Finset.range srcLen, w j := rfl
  refine ⟨?_, ?_, ?_, ?_, ?_⟩
  · intro i
    refine Finset.sum_congr rfl (fun k _ => ?_)
    refine congrArg (V_a k * ·) (congrArg Real.tanh ?_)
    simp only [Berard.MLPAttention.linear, Berard.MLPAttention.linearB]
    ring
  · intro i
    rw [hsnd]
    exact div_nonneg (hwnn i) hz.le
  · rw [hsnd]
    rw [← Finset.sum_div, div_self (ne_of_gt hz)]
  · intro i hm
    rw [hsnd]
    dsimp only
    rw [hw]
    dsimp only
    rw [hm]
    simp
  · intro c
    rfl

/-- Witness for the amended C6 at a concrete input. -/
theorem C6_mlp_attention_softmax_witness :
    (∃ i ∈ Finset.range 1, (fun (_ : ℕ) => false) i = false)
    ∧ (∑ i ∈ Finset.range 1,
        (Berard.MLPAttention.forward 1 1 1 1 (fun _ _ => 0) (fun _ => 0)
          (fun _ _ => 0) (fun _ => 0) (fun _ => 0) (fun _ _ => 0)
          (fun _ => false)).2 i) = 1 :=
  ⟨⟨0, by simp⟩,
   (C6_mlp_attention_softmax 1 1 1 1 (fun _ _ => 0) (fun _ => 0)
      (fun _ _ => 0) (fun _ => 0) (fun _ => 0) (fun _ _ => 0)
      (fun _ => false) ⟨0, by simp⟩).2.2.1⟩
